import Mathlib

/-!
Verification of the bitchomp binary-buffer toolkit: a shallow embedding of
`transmutable.rs`, `bytereader.rs`, `bytewriter.rs` and `chomp.rs`.

Bytes are modelled as `Nat` values (< 256 where produced by the encoders);
buffers as `List Nat`.  Machine loads performed through `Chomp::inner`
(`std::ptr::read_unaligned`) depend on the host's native byte order, which the
embedding carries as an explicit `native : Endianness` parameter.  Rust panics
(out-of-range slice or index operations) are modelled by `Option`: `none`
means the operation panics and returns no result.
-/

namespace Bitchomp

/-- `Endianness` from transmutable.rs. -/
inductive Endianness
  | little
  | big
deriving DecidableEq, Repr

/-- `TryFromBytesError` from transmutable.rs.  The `FromUtf8Error` payload of
`StringFromBytes` is omitted: only the variant tag matters to the reader. -/
inductive TryFromBytesError
  | stringFromBytes
  | arrayFromSlice
  | outOfBounds
deriving DecidableEq, Repr

/-- Little-endian byte list of the low `w` bytes of `v`
(the semantics of `to_le_bytes` on a `w`-byte integer). -/
def toBytesLE : Nat → Nat → List Nat
  | 0, _ => []
  | w + 1, v => v % 256 :: toBytesLE w (v / 256)

/-- Integer denoted by a little-endian byte list
(the semantics of `from_le_bytes`). -/
def fromBytesLE (bs : List Nat) : Nat :=
  bs.foldr (fun b acc => b + 256 * acc) 0

/-- `to_be_bytes`/`to_le_bytes` dispatch of the `ToBytes` impl for integer
types in transmutable.rs (big-endian is byte-reversed little-endian). -/
def toBytesInt (e : Endianness) (w v : Nat) : List Nat :=
  match e with
  | .little => toBytesLE w v
  | .big => (toBytesLE w v).reverse

/-- `from_be_bytes`/`from_le_bytes` dispatch used by the `TryFromBytes` impl
for integer types. -/
def fromBytesInt (e : Endianness) (bs : List Nat) : Nat :=
  match e with
  | .little => fromBytesLE bs
  | .big => fromBytesLE bs.reverse

/-- `<T as TryFromBytes>::try_from_bytes` for an unsigned integer type of
width `w` (transmutable.rs, blanket impl for `num_traits::FromBytes + TInt`):
error if fewer than `w` bytes are available, otherwise decode the first `w`
bytes at the given endianness and report `w` bytes consumed. -/
def tryFromBytesInt (e : Endianness) (w : Nat) (bytes : List Nat) :
    Except TryFromBytesError (Nat × Nat) :=
  if bytes.length < w then .error .outOfBounds
  else .ok (fromBytesInt e (bytes.take w), w)

/-- Two's-complement reading of a `w`-byte unsigned value as a signed one
(`2 * n < 256 ^ w` is `n < 2 ^ (8 * w - 1)` without the exponent subtraction). -/
def toSigned (w n : Nat) : Int :=
  if 2 * n < 256 ^ w then (n : Int) else (n : Int) - 256 ^ w

/-- `to_le_bytes`/`to_be_bytes` of a signed `w`-byte integer: the bytes of its
two's-complement representative in `[0, 256 ^ w)`. -/
def toBytesIntS (e : Endianness) (w : Nat) (v : Int) : List Nat :=
  toBytesInt e w (v % ((256 : Int) ^ w)).toNat

/-- `try_from_bytes` for a signed integer type of width `w`: the unsigned
decode reinterpreted in two's complement. -/
def tryFromBytesIntS (e : Endianness) (w : Nat) (bytes : List Nat) :
    Except TryFromBytesError (Int × Nat) :=
  match tryFromBytesInt e w bytes with
  | .error er => .error er
  | .ok (n, s) => .ok (toSigned w n, s)

/-- A UTF-8 continuation byte (`10xxxxxx`). -/
def isUtf8Cont (b : Nat) : Bool :=
  0x80 ≤ b && b ≤ 0xBF

/-- Validity of a byte sequence as UTF-8, the check performed by
`String::from_utf8` (external to the repository, modelled at its interface):
the standard table of well-formed sequences, rejecting overlong encodings,
surrogates and code points above U+10FFFF. -/
def utf8Valid : List Nat → Bool
  | [] => true
  | b :: rest =>
    if b ≤ 0x7F then utf8Valid rest
    else if 0xC2 ≤ b && b ≤ 0xDF then
      match rest with
      | c1 :: r => isUtf8Cont c1 && utf8Valid r
      | [] => false
    else if b = 0xE0 then
      match rest with
      | c1 :: c2 :: r => (0xA0 ≤ c1 && c1 ≤ 0xBF) && isUtf8Cont c2 && utf8Valid r
      | _ => false
    else if (0xE1 ≤ b && b ≤ 0xEC) || b = 0xEE || b = 0xEF then
      match rest with
      | c1 :: c2 :: r => isUtf8Cont c1 && isUtf8Cont c2 && utf8Valid r
      | _ => false
    else if b = 0xED then
      match rest with
      | c1 :: c2 :: r => (0x80 ≤ c1 && c1 ≤ 0x9F) && isUtf8Cont c2 && utf8Valid r
      | _ => false
    else if b = 0xF0 then
      match rest with
      | c1 :: c2 :: c3 :: r =>
        (0x90 ≤ c1 && c1 ≤ 0xBF) && isUtf8Cont c2 && isUtf8Cont c3 && utf8Valid r
      | _ => false
    else if 0xF1 ≤ b && b ≤ 0xF3 then
      match rest with
      | c1 :: c2 :: c3 :: r =>
        isUtf8Cont c1 && isUtf8Cont c2 && isUtf8Cont c3 && utf8Valid r
      | _ => false
    else if b = 0xF4 then
      match rest with
      | c1 :: c2 :: c3 :: r =>
        (0x80 ≤ c1 && c1 ≤ 0x8F) && isUtf8Cont c2 && isUtf8Cont c3 && utf8Valid r
      | _ => false
    else false

/-- `<String as TryFromBytes>::try_from_bytes` (transmutable.rs): collect
bytes until a zero byte or the end of input, validate as UTF-8, and report
the collected byte-length plus one as consumed.  A decoded string is modelled
as its byte list. -/
def stringTryFromBytes (bytes : List Nat) (_ : Endianness) :
    Except TryFromBytesError (List Nat × Nat) :=
  let v := bytes.takeWhile (fun b => b ≠ 0)
  if utf8Valid v then .ok (v, v.length + 1) else .error .stringFromBytes

/-- `<String as ToBytes>::to_bytes` (transmutable.rs): the string's bytes
followed by a single zero terminator; endianness is ignored. -/
def stringToBytes (s : List Nat) (_ : Endianness) : List Nat :=
  s ++ [0]

/-- `ByteReaderErrorKind` from bytereader.rs (payloads of the I/O variant
omitted: it is never produced by the modelled operations). -/
inductive ByteReaderErrorKind
  | noBytes
  | tryFromBytesError (e : TryFromBytesError)
  | ioError
  | infallible
deriving DecidableEq, Repr

/-- `ByteReaderError` from bytereader.rs: an error kind annotated with the
cursor position at the failure. -/
structure ByteReaderError where
  kind : ByteReaderErrorKind
  cursor : Nat
deriving DecidableEq, Repr

/-- `ByteReader` from bytereader.rs: the full buffer, the cursor (the
remaining suffix, stored as a slice in the source), and the configured
endianness. -/
structure ByteReader where
  buf : List Nat
  cursor : List Nat
  endianness : Endianness
deriving DecidableEq, Repr

/-- `ByteReader::cursor()`: the cursor position `buf.len() - cursor.len()`. -/
def ByteReader.cursorPos (st : ByteReader) : Nat :=
  st.buf.length - st.cursor.length

/-- `ByteReader::len()`: the length of the remaining buffer. -/
def ByteReader.len (st : ByteReader) : Nat :=
  st.cursor.length

/-- `ByteReader::err`: attach the current cursor position to an error kind. -/
def ByteReader.err (st : ByteReader) (k : ByteReaderErrorKind) : ByteReaderError :=
  ⟨k, st.cursorPos⟩

/-- `ByteReader::new`: cursor positioned at the buffer's start. -/
def ByteReader.new (buf : List Nat) (e : Endianness) : ByteReader :=
  ⟨buf, buf, e⟩

/-- `ByteReader::seek`: error if `pos` exceeds the buffer length, otherwise
set the cursor to the suffix starting at `pos`. -/
def ByteReader.seek (st : ByteReader) (pos : Nat) :
    Except ByteReaderError Unit × ByteReader :=
  if pos > st.buf.length then (.error (st.err .noBytes), st)
  else (.ok (), { st with cursor := st.buf.drop pos })

/-- `<ByteReader as BufRead>::consume`: `cursor = &cursor[amt..]`, which
panics (`none`) when `amt` exceeds the remaining length. -/
def ByteReader.consume (st : ByteReader) (amt : Nat) : Option ByteReader :=
  if amt ≤ st.cursor.length then some { st with cursor := st.cursor.drop amt }
  else none

/-- `ByteReader::peek_n::<T>` for a `w`-byte integer type, materialized
through `Chomp::inner` (chomp.rs): error when fewer than `n` whole elements
remain; otherwise the slice transmute exposes element `i` at byte offset
`i * w`, and `std::ptr::read_unaligned` loads its `w` bytes in the HOST's
native byte order `native`, ignoring the reader's configured endianness. -/
def ByteReader.peekN (native : Endianness) (w n : Nat) (st : ByteReader) :
    Except ByteReaderError (List Nat) :=
  if st.cursor.length / w < n then .error (st.err .noBytes)
  else .ok ((List.range n).map fun i =>
    fromBytesInt native ((st.cursor.drop (i * w)).take w))

/-- `ByteReader::read_n::<T>` for a `w`-byte integer type: `peek_n` then
`consume(n * size_of::<T>())`. -/
def ByteReader.readN (native : Endianness) (w n : Nat) (st : ByteReader) :
    Option (Except ByteReaderError (List Nat) × ByteReader) :=
  match st.peekN native w n with
  | .error e => some (.error e, st)
  | .ok vs => (st.consume (n * w)).map fun st' => (.ok vs, st')

/-- `ByteReader::read_string`: decode via `String::try_from_bytes` on the
cursor, then `consume(size)`; the consume panics (`none`) when `size`
exceeds the remaining length. -/
def ByteReader.readString (st : ByteReader) :
    Option (Except ByteReaderError (List Nat) × ByteReader) :=
  match stringTryFromBytes st.cursor st.endianness with
  | .error e => some (.error (st.err (.tryFromBytesError e)), st)
  | .ok (v, size) => (st.consume size).map fun st' => (.ok v, st')

/-- `ByteReader::read_sized_vector::<T>` for a `w`-byte element type: read a
`u32` (4 bytes, via the native-load fast path), then `read_n` that many
elements. -/
def ByteReader.readSizedVector (native : Endianness) (w : Nat) (st : ByteReader) :
    Option (Except ByteReaderError (List Nat) × ByteReader) :=
  match st.readN native 4 1 with
  | none => none
  | some (.error e, st') => some (.error e, st')
  | some (.ok vs, st') => st'.readN native w (vs.headD 0)

/-- `ByteReader::read_remaining::<T>` for a `w`-byte element type. -/
def ByteReader.readRemaining (native : Endianness) (w : Nat) (st : ByteReader) :
    Option (Except ByteReaderError (List Nat) × ByteReader) :=
  st.readN native w (st.cursor.length / w)

/-- One reader call in a `read`/`peek`/`seek` call sequence.  `read` is
`read_n(1)` and `peek` is `peek_n(1)` in the source, so the `n`-ary forms
cover them. -/
inductive ReaderOp
  | readN (w n : Nat)
  | peekN (w n : Nat)
  | seek (pos : Nat)
  | readSizedVector (w : Nat)
  | readRemaining (w : Nat)
deriving DecidableEq, Repr

/-- The reader state after one call.  `peek_n` takes `&self` and never
mutates.  The `none` (panic) branches keep the prior state; they are
unreachable for these operations. -/
def applyOp (native : Endianness) (st : ByteReader) : ReaderOp → ByteReader
  | .readN w n =>
    match st.readN native w n with
    | some (_, st') => st'
    | none => st
  | .peekN _ _ => st
  | .seek pos => (st.seek pos).2
  | .readSizedVector w =>
    match st.readSizedVector native w with
    | some (_, st') => st'
    | none => st
  | .readRemaining w =>
    match st.readRemaining native w with
    | some (_, st') => st'
    | none => st

/-- The reader state after a sequence of calls. -/
def runOps (native : Endianness) (ops : List ReaderOp) (st : ByteReader) : ByteReader :=
  ops.foldl (applyOp native) st

/-- `ByteWriterError` from bytewriter.rs. -/
inductive ByteWriterError
  | fail
deriving DecidableEq, Repr

/-- `ByteWriter` from bytewriter.rs. -/
structure ByteWriter where
  buf : List Nat
  endianness : Endianness
deriving DecidableEq, Repr

/-- `Vec::append(&mut self, other)` (Rust std): moves every element of
`other` to the end of `self`, leaving `other` empty.  Returns the pair
(self after, other after). -/
def vecAppend (a b : List Nat) : List Nat × List Nat :=
  (a ++ b, [])

/-- `ByteWriter::new`: empty buffer. -/
def ByteWriter.new (e : Endianness) : ByteWriter :=
  ⟨[], e⟩

/-- `ByteWriter::append::<T>`: a value is represented by its `to_bytes`
function `enc`.  The source computes `buf = data.to_bytes(endianness)`,
`self.buf.append(&mut buf)`, and returns `buf.len()` — the length of the
already-drained temporary. -/
def ByteWriter.append (st : ByteWriter) (enc : Endianness → List Nat) :
    ByteWriter × Nat :=
  let moved := vecAppend st.buf (enc st.endianness)
  ({ st with buf := moved.1 }, moved.2.length)

/-- The element-copy loop of `ByteWriter::write`: `self.buf[pos + i] = buf[i]`
for `i` in `0..size`; the index panics (`none`) at the first out-of-range
position, after having stored the earlier bytes. -/
def writeLoop (dst : List Nat) (pos : Nat) : List Nat → Option (List Nat)
  | [] => some dst
  | b :: rest =>
    if pos < dst.length then writeLoop (dst.set pos b) (pos + 1) rest
    else none

/-- `ByteWriter::write::<T>` (the patch-at-offset operation): encode, copy
byte-by-byte over the existing buffer, and return `Ok(buf.len())`; no
`ByteWriterError` is ever returned — an out-of-range offset panics instead. -/
def ByteWriter.write (st : ByteWriter) (enc : Endianness → List Nat) (pos : Nat) :
    Option (ByteWriter × Except ByteWriterError Nat) :=
  let buf := enc st.endianness
  (writeLoop st.buf pos buf).map fun b => ({ st with buf := b }, .ok buf.length)

/-- `ByteWriter::len`. -/
def ByteWriter.len (st : ByteWriter) : Nat :=
  st.buf.length

/-- `ByteWriter::write_sized_vec::<T>` for a `w`-byte integer element type:
append the `u32` length prefix, then each element's encoding; return
`data.len() * size_of::<T>() + 4`. -/
def ByteWriter.writeSizedVec (st : ByteWriter) (w : Nat) (data : List Nat) :
    ByteWriter × Nat :=
  let st1 := (st.append fun e => toBytesInt e 4 data.length).1
  let st2 := data.foldl (fun b v => (b.append fun e => toBytesInt e w v).1) st1
  (st2, data.length * w + 4)

theorem toBytesLE_length (w v : Nat) : (toBytesLE w v).length = w := by
  induction w generalizing v with
  | zero => rfl
  | succ w ih => simp [toBytesLE, ih]

theorem toBytesInt_length (e : Endianness) (w v : Nat) :
    (toBytesInt e w v).length = w := by
  cases e <;> simp [toBytesInt, toBytesLE_length]

theorem fromBytesLE_toBytesLE (w v : Nat) :
    fromBytesLE (toBytesLE w v) = v % 256 ^ w := by
  induction w generalizing v with
  | zero => simp [toBytesLE, fromBytesLE, Nat.mod_one]
  | succ w ih =>
    have hM : (256 : Nat) ^ (w + 1) = 256 * 256 ^ w := by ring
    have hrec := ih (v / 256)
    simp only [toBytesLE, fromBytesLE, List.foldr_cons] at *
    rw [hrec, hM, Nat.mod_mul]

theorem fromBytesInt_toBytesInt (e : Endianness) (w v : Nat) :
    fromBytesInt e (toBytesInt e w v) = v % 256 ^ w := by
  cases e <;> simp [fromBytesInt, toBytesInt, fromBytesLE_toBytesLE]

theorem takeWhile_ne_zero_append (s : List Nat) (h : ∀ b ∈ s, b ≠ 0) :
    (s ++ [0]).takeWhile (fun b => b ≠ 0) = s := by
  induction s with
  | nil => simp [List.takeWhile]
  | cons a t ih =>
    have ha : a ≠ 0 := h a (by simp)
    have ht : ∀ b ∈ t, b ≠ 0 := fun b hb => h b (by simp [hb])
    rw [List.cons_append, List.takeWhile_cons_of_pos (by simpa using ha), ih ht]

theorem takeWhile_ne_zero_all (s : List Nat) (h : ∀ b ∈ s, b ≠ 0) :
    s.takeWhile (fun b => b ≠ 0) = s := by
  induction s with
  | nil => simp [List.takeWhile]
  | cons a t ih =>
    have ha : a ≠ 0 := h a (by simp)
    have ht : ∀ b ∈ t, b ≠ 0 := fun b hb => h b (by simp [hb])
    rw [List.takeWhile_cons_of_pos (by simpa using ha), ih ht]

theorem tryFromBytesInt_toBytesInt (e : Endianness) (w v : Nat) (hv : v < 256 ^ w) :
    tryFromBytesInt e w (toBytesInt e w v) = .ok (v, w) := by
  have hlen := toBytesInt_length e w v
  unfold tryFromBytesInt
  rw [hlen, if_neg (lt_irrefl w), List.take_of_length_le hlen.le,
    fromBytesInt_toBytesInt, Nat.mod_eq_of_lt hv]

theorem tryFromBytesIntS_toBytesIntS (e : Endianness) (w : Nat) (v : Int)
    (h1 : -((256 : Int) ^ w) ≤ 2 * v) (h2 : 2 * v < (256 : Int) ^ w) :
    tryFromBytesIntS e w (toBytesIntS e w v) = .ok (v, w) := by
  have hMpos : (0 : Int) < (256 : Int) ^ w := by positivity
  have hcast : (((256 : Nat) ^ w : Nat) : Int) = (256 : Int) ^ w := by push_cast; ring
  have hmod_nonneg : 0 ≤ v % (256 : Int) ^ w := Int.emod_nonneg v (ne_of_gt hMpos)
  have hmod_lt : v % (256 : Int) ^ w < (256 : Int) ^ w := Int.emod_lt_of_pos v hMpos
  have hnv : (((v % (256 : Int) ^ w).toNat : Nat) : Int) = v % (256 : Int) ^ w :=
    Int.toNat_of_nonneg hmod_nonneg
  have hnlt : (v % (256 : Int) ^ w).toNat < 256 ^ w := by
    have : (((v % (256 : Int) ^ w).toNat : Nat) : Int) < (((256 : Nat) ^ w : Nat) : Int) := by
      rw [hnv, hcast]; exact hmod_lt
    exact_mod_cast this
  have hu := tryFromBytesInt_toBytesInt e w (v % (256 : Int) ^ w).toNat hnlt
  unfold tryFromBytesIntS toBytesIntS
  rw [hu]
  rcases le_or_lt 0 v with hv0 | hv0
  · have hvlt : v < (256 : Int) ^ w := by omega
    have hmod : v % (256 : Int) ^ w = v := Int.emod_eq_of_lt hv0 hvlt
    have hni : (((v % (256 : Int) ^ w).toNat : Nat) : Int) = v := by rw [hnv, hmod]
    have hlt : 2 * (v % (256 : Int) ^ w).toNat < 256 ^ w := by
      have h2' : (2 : Int) * (((v % (256 : Int) ^ w).toNat : Nat) : Int) <
          (((256 : Nat) ^ w : Nat) : Int) := by
        rw [hni, hcast]; exact h2
      exact_mod_cast h2'
    simp only [toSigned, if_pos hlt, hni]
  · have hmod : v % (256 : Int) ^ w = v + (256 : Int) ^ w := by
      have heq : (v + (256 : Int) ^ w * 1) % (256 : Int) ^ w = v % (256 : Int) ^ w :=
        Int.add_mul_emod_self_left v ((256 : Int) ^ w) 1
      have hlo : 0 ≤ v + (256 : Int) ^ w := by omega
      have hhi : v + (256 : Int) ^ w < (256 : Int) ^ w := by omega
      rw [mul_one] at heq
      rw [← heq, Int.emod_eq_of_lt hlo hhi]
    have hni : (((v % (256 : Int) ^ w).toNat : Nat) : Int) = v + (256 : Int) ^ w := by
      rw [hnv, hmod]
    have hge : ¬(2 * (v % (256 : Int) ^ w).toNat < 256 ^ w) := by
      intro hcon
      have hcon' : (2 : Int) * (((v % (256 : Int) ^ w).toNat : Nat) : Int) <
          (((256 : Nat) ^ w : Nat) : Int) := by exact_mod_cast hcon
      rw [hni, hcast] at hcon'
      omega
    have hres : ((((v % (256 : Int) ^ w).toNat : Nat) : Int) - (256 : Int) ^ w) = v := by
      rw [hni]; ring
    simp only [toSigned, if_neg hge, hres]

/-- C4: for every fixed-width integer type (any byte width `w`, unsigned and
signed) and both endianness settings, `try_from_bytes (to_bytes v e) e`
succeeds with the pair `(v, size_of T)` for every representable `v`,
including 0, the maximum, the minimum and -1 for signed types. -/
theorem int_roundtrip (w : Nat) (e : Endianness) :
    (∀ v : Nat, v < 256 ^ w → tryFromBytesInt e w (toBytesInt e w v) = .ok (v, w)) ∧
    (∀ v : Int, -((256 : Int) ^ w) ≤ 2 * v → 2 * v < (256 : Int) ^ w →
      tryFromBytesIntS e w (toBytesIntS e w v) = .ok (v, w)) :=
  ⟨fun v hv => tryFromBytesInt_toBytesInt e w v hv,
   fun v h1 h2 => tryFromBytesIntS_toBytesIntS e w v h1 h2⟩

/-- Witness for C4 at `w = 2` big-endian: the unsigned maximum 65535 and the
signed values -1 and -32768 round-trip. -/
theorem int_roundtrip_witness :
    tryFromBytesInt .big 2 (toBytesInt .big 2 65535) = .ok (65535, 2) ∧
    tryFromBytesIntS .big 2 (toBytesIntS .big 2 (-1)) = .ok (-1, 2) ∧
    tryFromBytesIntS .big 2 (toBytesIntS .big 2 (-32768)) = .ok (-32768, 2) :=
  ⟨(int_roundtrip 2 .big).1 65535 (by norm_num),
   (int_roundtrip 2 .big).2 (-1) (by norm_num) (by norm_num),
   (int_roundtrip 2 .big).2 (-32768) (by norm_num) (by norm_num)⟩

/-- C5: for every byte string `s` that is valid UTF-8 and has no embedded
zero byte (the empty string included) and either endianness,
`String::try_from_bytes (String::to_bytes s e) e` succeeds with exactly `s`
and consumed length `s.length + 1`. -/
theorem string_roundtrip (s : List Nat) (e e' : Endianness)
    (hvalid : utf8Valid s = true) (hnz : ∀ b ∈ s, b ≠ 0) :
    stringTryFromBytes (stringToBytes s e) e' = .ok (s, s.length + 1) := by
  unfold stringTryFromBytes stringToBytes
  simp only [takeWhile_ne_zero_append s hnz, hvalid, if_pos]

/-- Witness for C5: the two-byte string "hi" and the empty string round-trip
at both endianness settings. -/
theorem string_roundtrip_witness :
    stringTryFromBytes (stringToBytes [104, 105] .little) .little = .ok ([104, 105], 3) ∧
    stringTryFromBytes (stringToBytes [] .big) .big = .ok ([], 1) :=
  ⟨string_roundtrip [104, 105] .little .little (by decide) (by decide),
   string_roundtrip [] .big .big (by decide) (by decide)⟩

theorem readN_error_state (native : Endianness) (w n : Nat) (st st' : ByteReader)
    (e : ByteReaderError)
    (h : ByteReader.readN native w n st = some (.error e, st')) :
    st' = st ∧ e = st.err .noBytes := by
  unfold ByteReader.readN at h
  cases hpk : st.peekN native w n with
  | error e' =>
    rw [hpk] at h
    unfold ByteReader.peekN at hpk
    by_cases hc : st.cursor.length / w < n
    · rw [if_pos hc] at hpk
      simp at h
      exact ⟨h.2.symm, by
        cases hpk
        exact h.1.symm⟩
    · rw [if_neg hc] at hpk
      cases hpk
  | ok vs =>
    rw [hpk] at h
    cases hcons : st.consume (n * w) with
    | none => rw [hcons] at h; simp at h
    | some s => rw [hcons] at h; simp at h

theorem readN_ok_state (native : Endianness) (w n : Nat) (st st' : ByteReader)
    (vs : List Nat)
    (h : ByteReader.readN native w n st = some (.ok vs, st')) :
    st'.buf = st.buf ∧ st'.endianness = st.endianness ∧
    n * w ≤ st.cursor.length ∧ st'.cursor = st.cursor.drop (n * w) := by
  unfold ByteReader.readN at h
  cases hpk : st.peekN native w n with
  | error e' => rw [hpk] at h; simp at h
  | ok vs' =>
    rw [hpk] at h
    cases hcons : st.consume (n * w) with
    | none => rw [hcons] at h; simp at h
    | some s =>
      rw [hcons] at h
      simp at h
      unfold ByteReader.consume at hcons
      by_cases hle : n * w ≤ st.cursor.length
      · rw [if_pos hle] at hcons
        cases hcons
        rw [← h.2]
        exact ⟨rfl, rfl, hle, rfl⟩
      · rw [if_neg hle] at hcons
        cases hcons

theorem readN_total (native : Endianness) (w n : Nat) (st : ByteReader) :
    ∃ r st', ByteReader.readN native w n st = some (r, st') := by
  unfold ByteReader.readN
  cases hpk : st.peekN native w n with
  | error e => exact ⟨.error e, st, rfl⟩
  | ok vs =>
    have hle : n * w ≤ st.cursor.length := by
      unfold ByteReader.peekN at hpk
      by_cases hc : st.cursor.length / w < n
      · rw [if_pos hc] at hpk; cases hpk
      · push_neg at hc
        rcases Nat.eq_zero_or_pos w with hw | hw
        · subst hw; simp
        · have := (Nat.le_div_iff_mul_le hw).mp hc
          omega
    unfold ByteReader.consume
    rw [if_pos hle]
    exact ⟨.ok vs, _, rfl⟩

/-- C7: whenever the remaining bytes suffice for fewer than `n` whole
elements of a `w`-byte type, `read_n` fails with `NoBytes` and the reader
state — in particular the cursor position — is exactly what it was before
the call. -/
theorem readN_atomic_failure (native : Endianness) (w n : Nat) (st : ByteReader)
    (h : st.cursor.length < n * w) :
    ByteReader.readN native w n st = some (.error (st.err .noBytes), st) := by
  have hw : 0 < w := by
    rcases Nat.eq_zero_or_pos w with hw | hw
    · subst hw; rw [Nat.mul_zero] at h; omega
    · exact hw
  have hdiv : st.cursor.length / w < n := (Nat.div_lt_iff_lt_mul hw).mpr h
  have hpk : st.peekN native w n = .error (st.err .noBytes) := by
    unfold ByteReader.peekN
    rw [if_pos hdiv]
  unfold ByteReader.readN
  rw [hpk]

/-- Witness for C7: one byte remaining, one two-byte element requested —
`read_n` fails with `NoBytes` at cursor 0 and the state is unchanged. -/
theorem readN_atomic_failure_witness :
    ByteReader.readN .little 2 1 (ByteReader.new [0] .little) =
      some (.error ⟨.noBytes, 0⟩, ByteReader.new [0] .little) :=
  readN_atomic_failure .little 2 1 (ByteReader.new [0] .little) (by decide)

/-- C8: when the 4-byte length-prefix read of `read_sized_vector` succeeds
and the subsequent `read_n` of that many elements fails, the whole call
returns that error and the cursor ends exactly 4 bytes after where it
started: the prefix consumption is committed, not rolled back. -/
theorem readSizedVector_prefix_committed (native : Endianness) (w : Nat)
    (st st₁ st₂ : ByteReader) (vs : List Nat) (e : ByteReaderError)
    (hinv : st.cursor.length ≤ st.buf.length)
    (hpre : ByteReader.readN native 4 1 st = some (.ok vs, st₁))
    (hfail : ByteReader.readN native w (vs.headD 0) st₁ = some (.error e, st₂)) :
    ByteReader.readSizedVector native w st = some (.error e, st₂) ∧
    st₂.cursorPos = st.cursorPos + 4 := by
  have hok := readN_ok_state native 4 1 st st₁ vs hpre
  have herr := readN_error_state native w (vs.headD 0) st₁ st₂ e hfail
  constructor
  · unfold ByteReader.readSizedVector
    rw [hpre]
    exact hfail
  · have h4 : (4 : Nat) ≤ st.cursor.length := by
      have := hok.2.2.1
      omega
    have hc1 : st₁.cursor.length = st.cursor.length - 4 := by
      rw [hok.2.2.2]
      simp [List.length_drop]
    unfold ByteReader.cursorPos
    rw [herr.1, hok.1, hc1]
    omega

/-- Witness for C8: buffer `[10,0,0,0]` — the prefix decodes to 10, the
element batch fails on an empty remainder, and the cursor lands at 4. -/
theorem readSizedVector_prefix_committed_witness :
    ByteReader.readSizedVector .little 1 (ByteReader.new [10, 0, 0, 0] .little) =
      some (.error ⟨.noBytes, 4⟩,
        { buf := [10, 0, 0, 0], cursor := [], endianness := .little }) ∧
    ({ buf := [10, 0, 0, 0], cursor := [], endianness := .little } :
      ByteReader).cursorPos = (ByteReader.new [10, 0, 0, 0] .little).cursorPos + 4 :=
  readSizedVector_prefix_committed .little 1 (ByteReader.new [10, 0, 0, 0] .little)
    { buf := [10, 0, 0, 0], cursor := [], endianness := .little }
    { buf := [10, 0, 0, 0], cursor := [], endianness := .little }
    [10] ⟨.noBytes, 4⟩ (by decide) (by rfl) (by rfl)

theorem readN_cursor_suffix (native : Endianness) (w n : Nat) (st st' : ByteReader)
    (r : Except ByteReaderError (List Nat))
    (h : ByteReader.readN native w n st = some (r, st')) :
    st'.buf = st.buf ∧ st'.cursor <:+ st.cursor := by
  cases r with
  | error e =>
    have he := readN_error_state native w n st st' e h
    rw [he.1]
    exact ⟨rfl, List.suffix_refl _⟩
  | ok vs =>
    have ho := readN_ok_state native w n st st' vs h
    refine ⟨ho.1, ?_⟩
    rw [ho.2.2.2]
    exact List.drop_suffix _ _

theorem readSizedVector_cursor_suffix (native : Endianness) (w : Nat)
    (st st' : ByteReader) (r : Except ByteReaderError (List Nat))
    (h : ByteReader.readSizedVector native w st = some (r, st')) :
    st'.buf = st.buf ∧ st'.cursor <:+ st.cursor := by
  unfold ByteReader.readSizedVector at h
  cases h4 : st.readN native 4 1 with
  | none => rw [h4] at h; cases h
  | some p =>
    obtain ⟨r4, st4⟩ := p
    rw [h4] at h
    cases r4 with
    | error e =>
      simp at h
      have hs := readN_cursor_suffix native 4 1 st st4 (.error e) h4
      rw [← h.2]
      exact hs
    | ok vs =>
      have hs4 := readN_cursor_suffix native 4 1 st st4 (.ok vs) h4
      have hs' := readN_cursor_suffix native w (vs.headD 0) st4 st' r h
      exact ⟨hs'.1.trans hs4.1, hs'.2.trans hs4.2⟩

theorem applyOp_state (native : Endianness) (st : ByteReader) (op : ReaderOp)
    (h : st.cursor <:+ st.buf) :
    (applyOp native st op).buf = st.buf ∧ (applyOp native st op).cursor <:+ st.buf := by
  cases op with
  | readN w n =>
    simp only [applyOp]
    cases hr : st.readN native w n with
    | none => exact ⟨rfl, h⟩
    | some p =>
      obtain ⟨r, st'⟩ := p
      have hs := readN_cursor_suffix native w n st st' r hr
      exact ⟨hs.1, hs.2.trans h⟩
  | peekN w n => exact ⟨rfl, h⟩
  | seek pos =>
    simp only [applyOp]
    unfold ByteReader.seek
    by_cases hp : pos > st.buf.length
    · rw [if_pos hp]
      exact ⟨rfl, h⟩
    · rw [if_neg hp]
      exact ⟨rfl, List.drop_suffix _ _⟩
  | readSizedVector w =>
    simp only [applyOp]
    cases hr : st.readSizedVector native w with
    | none => exact ⟨rfl, h⟩
    | some p =>
      obtain ⟨r, st'⟩ := p
      have hs := readSizedVector_cursor_suffix native w st st' r hr
      exact ⟨hs.1, hs.2.trans h⟩
  | readRemaining w =>
    simp only [applyOp]
    cases hr : st.readRemaining native w with
    | none => exact ⟨rfl, h⟩
    | some p =>
      obtain ⟨r, st'⟩ := p
      unfold ByteReader.readRemaining at hr
      have hs := readN_cursor_suffix native w (st.cursor.length / w) st st' r hr
      exact ⟨hs.1, hs.2.trans h⟩

theorem runOps_state (native : Endianness) (ops : List ReaderOp) :
    ∀ st : ByteReader, st.cursor <:+ st.buf →
      (runOps native ops st).buf = st.buf ∧ (runOps native ops st).cursor <:+ st.buf := by
  induction ops with
  | nil => exact fun st h => ⟨rfl, h⟩
  | cons op rest ih =>
    intro st h
    have h1 := applyOp_state native st op h
    have h2 := ih (applyOp native st op) (h1.1 ▸ h1.2)
    simp only [runOps, List.foldl_cons] at *
    exact ⟨h2.1.trans h1.1, h1.1 ▸ h2.2⟩

/-- C6: after every sequence of `read`/`peek`/`seek` (and the derived
`read_n`, `peek_n`, `read_sized_vector`, `read_remaining`) calls,
`cursor_position() + remaining_length()` equals the total buffer length —
equivalently the cursor is always a suffix of the buffer. -/
theorem cursor_invariant (native : Endianness) (buf : List Nat) (e : Endianness)
    (ops : List ReaderOp) :
    (runOps native ops (ByteReader.new buf e)).cursorPos +
      (runOps native ops (ByteReader.new buf e)).len = buf.length := by
  have h := runOps_state native ops (ByteReader.new buf e) (List.suffix_refl buf)
  have hle : (runOps native ops (ByteReader.new buf e)).cursor.length ≤ buf.length :=
    h.2.length_le
  unfold ByteReader.cursorPos ByteReader.len
  rw [h.1]
  show buf.length - _ + _ = buf.length
  omega

/-- C10: on any reader state whose remaining bytes are valid UTF-8 with no
zero byte, the String decode succeeds reporting `remaining + 1` consumed
bytes, so `read_string`'s consume slices one past the end of the cursor and
panics: the call returns no result at all (neither a string nor an error). -/
theorem readString_no_terminator_panics (st : ByteReader)
    (hvalid : utf8Valid st.cursor = true) (hnz : ∀ b ∈ st.cursor, b ≠ 0) :
    ByteReader.readString st = none := by
  have hs : stringTryFromBytes st.cursor st.endianness =
      .ok (st.cursor, st.cursor.length + 1) := by
    unfold stringTryFromBytes
    rw [takeWhile_ne_zero_all st.cursor hnz]
    simp [hvalid]
  have hc : st.consume (st.cursor.length + 1) = none := by
    unfold ByteReader.consume
    rw [if_neg (by omega)]
  unfold ByteReader.readString
  rw [hs]
  show Option.map (fun st' => (Except.ok st.cursor, st')) (st.consume (st.cursor.length + 1)) = none
  rw [hc]
  rfl

/-- Witness for C10: a single byte `A` with no terminator — `read_string`
panics (`none`). -/
theorem readString_no_terminator_panics_witness :
    ByteReader.readString (ByteReader.new [65] .little) = none :=
  readString_no_terminator_panics (ByteReader.new [65] .little) (by decide) (by decide)

/-- C1: FALSIFIED.  The bulk read path materializes elements with
`read_unaligned`, a native-endian load that ignores the reader's configured
endianness.  On a little-endian host a big-endian reader over `[0, 1]` gets
256 from `read_n::<u16>(1)` while `try_from_bytes` at the configured (big)
endianness yields 1; on a big-endian host the dual mismatch occurs with a
little-endian reader.  The two paths are not bit-identical. -/
theorem readN_fast_path_ignores_endianness :
    ByteReader.readN .little 2 1 (ByteReader.new [0, 1] .big) =
      some (.ok [256], { buf := [0, 1], cursor := [], endianness := .big }) ∧
    tryFromBytesInt .big 2 [0, 1] = .ok (1, 2) ∧
    ByteReader.readN .big 2 1 (ByteReader.new [0, 1] .little) =
      some (.ok [1], { buf := [0, 1], cursor := [], endianness := .little }) ∧
    tryFromBytesInt .little 2 [0, 1] = .ok (256, 2) :=
  ⟨rfl, rfl, rfl, rfl⟩

/-- C2: FALSIFIED return value.  `append` does append the encoding (the
buffer grows from 0 to 2 bytes when a `u16` is appended), but it returns the
length of the temporary vector AFTER `Vec::append` drained it, which is
always 0, not the number of bytes written. -/
theorem append_returns_zero :
    ByteWriter.append (ByteWriter.new .little) (fun e => toBytesInt e 2 10) =
      ({ buf := [10, 0], endianness := .little }, 0) ∧
    ({ buf := [10, 0], endianness := .little } : ByteWriter).buf.length =
      (ByteWriter.new .little).buf.length + 2 :=
  ⟨rfl, rfl⟩

/-- C3: FALSIFIED failure mode.  When `offset + len(encoded)` exceeds the
buffer length, `write` panics on an out-of-range index (`none`) instead of
returning an error; within bounds it overwrites in place and returns
`Ok(len)` without changing the buffer length. -/
theorem write_panics_instead_of_error :
    ByteWriter.write (ByteWriter.new .little) (fun e => toBytesInt e 2 5) 0 = none ∧
    ByteWriter.write { buf := [9, 9], endianness := .little }
      (fun e => toBytesInt e 2 5) 0 =
      some ({ buf := [5, 0], endianness := .little }, .ok 2) :=
  ⟨rfl, rfl⟩

/-- C9: FALSIFIED.  `write_sized_vec` encodes the length prefix and the
elements at the writer's configured endianness, but `read_sized_vector`
decodes both through the native-endian fast path.  With configured
endianness opposite to the host's, the 4-byte prefix `1` is misread as
16777216 and the read fails with `NoBytes` instead of reproducing `[5]`;
this happens on little-endian hosts for big-endian writers (first pair) and
on big-endian hosts for little-endian writers (second pair). -/
theorem sizedVec_roundtrip_cross_endian_fails :
    (ByteWriter.writeSizedVec (ByteWriter.new .big) 2 [5]).1.buf = [0, 0, 0, 1, 0, 5] ∧
    ByteReader.readSizedVector .little 2 (ByteReader.new [0, 0, 0, 1, 0, 5] .big) =
      some (.error ⟨.noBytes, 4⟩,
        { buf := [0, 0, 0, 1, 0, 5], cursor := [0, 5], endianness := .big }) ∧
    (ByteWriter.writeSizedVec (ByteWriter.new .little) 2 [5]).1.buf = [1, 0, 0, 0, 5, 0] ∧
    ByteReader.readSizedVector .big 2 (ByteReader.new [1, 0, 0, 0, 5, 0] .little) =
      some (.error ⟨.noBytes, 4⟩,
        { buf := [1, 0, 0, 0, 5, 0], cursor := [5, 0], endianness := .little }) :=
  ⟨rfl, rfl, rfl, rfl⟩

end Bitchomp
